import Mathlib

/-
Verification of the VTLN warp-factor training engine
(`shennong/processor/vtln.py`, class `VtlnProcessor`).

Shallow embedding conventions:
* Python floats are modelled as elements of a linear ordered field
  (instantiated at `ℚ` for executable witnesses and at `ℝ` where the
  source applies `np.sqrt`, which is modelled by `Real.sqrt`).
* Python dicts are modelled as association lists `List (String × _)`
  with the first-match lookup `dget` (dict keys are unique, so first
  match agrees with dict lookup).
* Fallible Python code (raise) is modelled with `Except PyErr _`.
* `kaldi` linear-algebra primitives are inlined as the corresponding
  matrix/vector operations; the UBM-GMM black box is abstracted by
  explicit operation records, as the spec treats it as an external
  collaborator.
-/

set_option linter.unusedSectionVars false

/-- Kinds of Python exceptions raised by the code under study. -/
inductive PyErr : Type
  /-- Python `ValueError` (validation and data-mismatch errors). -/
  | valueError : PyErr
  /-- Python `TypeError` (VTLN not initialized, warps not computed). -/
  | typeError : PyErr
  /-- Python `OSError` (file exists / file missing). -/
  | osError : PyErr
  /-- Python `ZeroDivisionError` (float division by exact zero). -/
  | zeroDivision : PyErr
  /-- Python `KeyError` (dict access with a missing key). -/
  | keyError : PyErr
  /-- Error raised inside kaldi native code (assert / LAPACK failure). -/
  | kaldiError : PyErr
deriving DecidableEq, Repr

/-- First-match association-list lookup: the model of Python dict access
`d[k]` / `k in d` for dicts represented as `List (String × α)`. -/
def dget {α : Type _} : List (String × α) → String → Option α
  | [], _ => none
  | (k', v) :: rest, k => if k = k' then some v else dget rest k

/-- Python `int()` applied to a float: truncation toward zero. -/
def pyint (x : ℚ) : ℤ := if 0 ≤ x then ⌊x⌋ else ⌈x⌉

/-- `num_classes = int(1.5 + (self.max_warp-self.min_warp) / self.warp_step)`
(vtln.py line 573). -/
def num_classes (min_warp max_warp warp_step : ℚ) : ℤ :=
  pyint (1.5 + (max_warp - min_warp) / warp_step)

/-- `default_class = int(0.5 + (1-self.min_warp)/self.warp_step)`
(vtln.py line 574). -/
def default_class (min_warp warp_step : ℚ) : ℤ :=
  pyint (0.5 + (1 - min_warp) / warp_step)

/-- `this_warp = self.min_warp + c*self.warp_step` (vtln.py line 615): the
warp value attached to class `c` of the grid. -/
def class_warp (min_warp warp_step : ℚ) (c : ℤ) : ℚ :=
  min_warp + c * warp_step

theorem pyint_of_nonneg {x : ℚ} (h : 0 ≤ x) : pyint x = ⌊x⌋ := if_pos h

/-- Helper: for `min_warp ≤ max_warp` and `0 < warp_step` the argument of
the `num_classes` truncation is nonnegative, so `int()` is a floor. -/
theorem num_classes_eq_floor {mi ma st : ℚ} (h1 : mi ≤ ma) (h2 : 0 < st) :
    num_classes mi ma st = ⌊1.5 + (ma - mi) / st⌋ := by
  apply pyint_of_nonneg
  have hd : 0 ≤ (ma - mi) / st := div_nonneg (by linarith) h2.le
  linarith

/-- Helper: for `min_warp ≤ 1` and `0 < warp_step` the argument of the
`default_class` truncation is nonnegative, so `int()` is a floor. -/
theorem default_class_eq_floor {mi st : ℚ} (h3 : mi ≤ 1) (h2 : 0 < st) :
    default_class mi st = ⌊0.5 + (1 - mi) / st⌋ := by
  apply pyint_of_nonneg
  have hd : 0 ≤ (1 - mi) / st := div_nonneg (by linarith) h2.le
  linarith

/-- Helper: under `min_warp ≤ 1` the default class is the round-half-up of
`(1-min_warp)/warp_step`. -/
theorem default_class_eq_round {mi st : ℚ} (h3 : mi ≤ 1) (h2 : 0 < st) :
    default_class mi st = round ((1 - mi) / st) := by
  rw [default_class_eq_floor h3 h2, round_eq]
  norm_num [add_comm]

/-- Helper: under `min_warp ≤ max_warp` the class count is one more than
the round-half-up of `(max_warp-min_warp)/warp_step`. -/
theorem num_classes_eq_round {mi ma st : ℚ} (h1 : mi ≤ ma) (h2 : 0 < st) :
    num_classes mi ma st = 1 + round ((ma - mi) / st) := by
  rw [num_classes_eq_floor h1 h2, round_eq]
  have : (1.5 : ℚ) + (ma - mi) / st = ((1 : ℤ) : ℚ) + ((ma - mi) / st + 1 / 2) := by
    push_cast; ring
  rw [this, Int.floor_int_add]

/-- Helper: the default class is a global minimizer of the distance between
its warp value and `1.0`, provided `min_warp ≤ 1 < ∞` and `0 < warp_step`. -/
theorem default_class_nearest {mi st : ℚ} (h3 : mi ≤ 1) (h2 : 0 < st) (c : ℤ) :
    |class_warp mi st (default_class mi st) - 1| ≤ |class_warp mi st c - 1| := by
  have key : ∀ z : ℤ, |class_warp mi st z - 1| = st * |(1 - mi) / st - z| := by
    intro z
    have : class_warp mi st z - 1 = -(st * ((1 - mi) / st - z)) := by
      field_simp [class_warp]; ring
    rw [this, abs_neg, abs_mul, abs_of_pos h2]
  rw [key, key, default_class_eq_round h3 h2]
  exact mul_le_mul_of_nonneg_left (round_le ((1 - mi) / st) c) h2.le

/-- C2 (counterexample): with `min_warp = 1`, `max_warp = 5/4`, `warp_step = 1`
(a configuration satisfying `min_warp ≤ max_warp` and `warp_step > 0`), the
code computes `num_classes = int(1.75) = 1` and `default_class = int(0.5) = 0`,
while the claimed formulas `round(1.5 + (max-min)/step)` and
`round(0.5 + (1-min)/step)` give `2` and `1`: Python `int()` truncates, it
does not round to nearest. -/
theorem claim_C2_counterexample :
    (1 : ℚ) ≤ 5 / 4 ∧ (0 : ℚ) < 1 ∧
    num_classes 1 (5 / 4) 1 = 1 ∧
    round ((1.5 : ℚ) + (5 / 4 - 1) / 1) = 2 ∧
    num_classes 1 (5 / 4) 1 ≠ round ((1.5 : ℚ) + (5 / 4 - 1) / 1) ∧
    default_class 1 1 = 0 ∧
    round ((0.5 : ℚ) + (1 - 1) / 1) = 1 ∧
    default_class 1 1 ≠ round ((0.5 : ℚ) + (1 - 1) / 1) := by
  have e1 : num_classes 1 (5 / 4) 1 = 1 := by
    rw [num_classes, pyint, if_pos (by norm_num)]; norm_num
  have e2 : round ((1.5 : ℚ) + (5 / 4 - 1) / 1) = 2 := by
    rw [round_eq]; norm_num
  have e3 : default_class 1 1 = 0 := by
    rw [default_class, pyint, if_pos (by norm_num)]; norm_num
  have e4 : round ((0.5 : ℚ) + (1 - 1) / 1) = 1 := by
    rw [round_eq]; norm_num
  refine ⟨by norm_num, by norm_num, e1, e2, ?_, e3, e4, ?_⟩
  · rw [e1, e2]; decide
  · rw [e3, e4]; decide

/-- C2 (amended): for `min_warp ≤ max_warp`, `warp_step > 0` and
`min_warp ≤ 1`, the LVTLN model built by `process()` has
`num_classes = 1 + round_half_up((max_warp-min_warp)/warp_step)` classes
(the code's `int(1.5 + ...)` truncation) and default class
`round_half_up((1-min_warp)/warp_step)` (the code's `int(0.5 + ...)`), and
the default class index globally minimizes the distance between its warp
value and `1.0`. -/
theorem claim_C2_warp_grid (mi ma st : ℚ)
    (h1 : mi ≤ ma) (h2 : 0 < st) (h3 : mi ≤ 1) :
    num_classes mi ma st = 1 + round ((ma - mi) / st) ∧
    default_class mi st = round ((1 - mi) / st) ∧
    ∀ c : ℤ, |class_warp mi st (default_class mi st) - 1| ≤
      |class_warp mi st c - 1| :=
  ⟨num_classes_eq_round h1 h2, default_class_eq_round h3 h2,
    default_class_nearest h3 h2⟩

/-- C2 (witness): the amended theorem applied to the processor's default
configuration `min_warp = 0.85`, `max_warp = 1.25`, `warp_step = 0.01`. -/
theorem claim_C2_warp_grid_witness :
    num_classes (17 / 20) (5 / 4) (1 / 100) =
      1 + round (((5 : ℚ) / 4 - 17 / 20) / (1 / 100)) ∧
    default_class (17 / 20) (1 / 100) = round ((1 - (17 : ℚ) / 20) / (1 / 100)) ∧
    ∀ c : ℤ, |class_warp (17 / 20) (1 / 100)
        (default_class (17 / 20) (1 / 100)) - 1| ≤
      |class_warp (17 / 20) (1 / 100) c - 1| :=
  claim_C2_warp_grid (17 / 20) (5 / 4) (1 / 100)
    (by norm_num) (by norm_num) (by norm_num)

/-- C3 (counterexample): `min_warp = max_warp = 6/5`, `warp_step = 1/10` is a
valid configuration (`min_warp ≤ max_warp`, `warp_step > 0`), yet the code
computes `num_classes = 1` and `default_class = int(0.5 - 2) = -1`, which
does not lie in `[0, num_classes)`. -/
theorem claim_C3_counterexample :
    (6 / 5 : ℚ) ≤ 6 / 5 ∧ (0 : ℚ) < 1 / 10 ∧
    num_classes (6 / 5) (6 / 5) (1 / 10) = 1 ∧
    default_class (6 / 5) (1 / 10) = -1 ∧
    ¬ (0 ≤ default_class (6 / 5) (1 / 10)) := by
  have e1 : num_classes (6 / 5) (6 / 5) (1 / 10) = 1 := by
    rw [num_classes, pyint, if_pos (by norm_num)]; norm_num
  have e2 : default_class (6 / 5) (1 / 10) = -1 := by
    rw [default_class, pyint, if_neg (by norm_num)]
    norm_num
    rw [Int.ceil_neg]
    norm_num
  exact ⟨by norm_num, by norm_num, e1, e2, by rw [e2]; decide⟩

/-- C3 (amended): for every configuration with `min_warp ≤ max_warp`,
`warp_step > 0` and additionally `min_warp ≤ 1 ≤ max_warp` (the grid
straddles the no-warp point), the computed `num_classes` is at least 1, the
computed `default_class` lies in `[0, num_classes)`, and its warp value is
closest to `1.0` among all classes. -/
theorem claim_C3_class_grid_bounds (mi ma st : ℚ)
    (h1 : mi ≤ ma) (h2 : 0 < st) (h3 : mi ≤ 1) (h4 : 1 ≤ ma) :
    1 ≤ num_classes mi ma st ∧
    0 ≤ default_class mi st ∧
    default_class mi st < num_classes mi ma st ∧
    ∀ c : ℤ, |class_warp mi st (default_class mi st) - 1| ≤
      |class_warp mi st c - 1| := by
  have hd : (0 : ℚ) ≤ (ma - mi) / st := div_nonneg (by linarith) h2.le
  have ht : (0 : ℚ) ≤ (1 - mi) / st := div_nonneg (by linarith) h2.le
  have htd : (1 - mi) / st ≤ (ma - mi) / st := by gcongr
  refine ⟨?_, ?_, ?_, default_class_nearest h3 h2⟩
  · rw [num_classes_eq_floor h1 h2]
    exact Int.le_floor.2 (by push_cast; linarith)
  · rw [default_class_eq_floor h3 h2]
    exact Int.le_floor.2 (by push_cast; linarith)
  · rw [num_classes_eq_floor h1 h2, default_class_eq_floor h3 h2]
    have : (0.5 : ℚ) + (1 - mi) / st + 1 ≤ 1.5 + (ma - mi) / st := by linarith
    calc ⌊(0.5 : ℚ) + (1 - mi) / st⌋ < ⌊(0.5 : ℚ) + (1 - mi) / st⌋ + 1 :=
          lt_add_one _
      _ = ⌊(0.5 : ℚ) + (1 - mi) / st + 1⌋ := (Int.floor_add_one _).symm
      _ ≤ ⌊(1.5 : ℚ) + (ma - mi) / st⌋ := Int.floor_le_floor this

/-- C3 (witness): the amended theorem at the default configuration. -/
theorem claim_C3_class_grid_bounds_witness :
    1 ≤ num_classes (17 / 20) (5 / 4) (1 / 100) ∧
    0 ≤ default_class (17 / 20) (1 / 100) ∧
    default_class (17 / 20) (1 / 100) < num_classes (17 / 20) (5 / 4) (1 / 100) ∧
    ∀ c : ℤ, |class_warp (17 / 20) (1 / 100)
        (default_class (17 / 20) (1 / 100)) - 1| ≤
      |class_warp (17 / 20) (1 / 100) c - 1| :=
  claim_C3_class_grid_bounds (17 / 20) (5 / 4) (1 / 100)
    (by norm_num) (by norm_num) (by norm_num) (by norm_num)

section MappingTransform

variable {F : Type _} [LinearOrderedField F] [DecidableEq F] {d : ℕ}

/-- The LVTLN model (kaldi `LinearVtln`), as used by
`compute_mapping_transform`: an ordered list of per-class square (`d × d`)
linear transforms together with their warp values. `d` is the feature
dimension `lvtln.dim()`. -/
structure LinearVtln (F : Type _) (d : ℕ) where
  classes : List (Matrix (Fin d) (Fin d) F × F)
deriving DecidableEq

/-- `self.lvtln.set_transform(class_idx, A)` followed by
`self.lvtln.set_warp(class_idx, warp)` (vtln.py lines 380-381). -/
def LinearVtln.set_transform_warp (m : LinearVtln F d) (class_idx : ℕ)
    (A : Matrix (Fin d) (Fin d) F) (warp : F) : LinearVtln F d :=
  ⟨m.classes.set class_idx (A, warp)⟩

/-- The number of classes `lvtln.num_classes()`. -/
def LinearVtln.num_classes_of (m : LinearVtln F d) : ℕ := m.classes.length

/-- `lvtln.get_warp(class_idx)`; kaldi asserts the index is within range,
modelled by the partiality of `List.get?`. -/
def LinearVtln.get_warp (m : LinearVtln F d) (class_idx : ℕ) : Option F :=
  (m.classes.get? class_idx).map Prod.snd

/-- A `FeaturesCollection` restricted to what the estimator reads: an
ordered dict from utterance name to the list of feature frames (each a
`dim`-vector). The column count of every matrix is `d` by typing. -/
abbrev FeatsColl (F : Type _) (d : ℕ) := List (String × List (Fin d → F))

/-- The accumulators of `compute_mapping_transform` (vtln.py lines
299-304): `Q`, `l`, `c`, `beta`, `sum_xplus`, `sumsq_x`, `sumsq_diff`. -/
structure MStats (F : Type _) (d : ℕ) where
  Q : Matrix (Fin (d + 1)) (Fin (d + 1)) F
  L : Matrix (Fin d) (Fin (d + 1)) F
  c : Fin d → F
  beta : F
  sum_xplus : Fin (d + 1) → F
  sumsq_x : Fin d → F
  sumsq_diff : Fin d → F
deriving DecidableEq

/-- `xplus_row_dbl`: the frame extended by a trailing `1.0` (vtln.py lines
329-332). -/
def xplus (x : Fin d → F) : Fin (d + 1) → F := Fin.snoc x 1

/-- One frame's contribution to the accumulators (vtln.py lines 325-343). -/
def addFrame (s : MStats F d) (weight : F) (x y : Fin d → F) : MStats F d where
  Q := s.Q + weight • Matrix.vecMulVec (xplus x) (xplus x)
  L := s.L + weight • Matrix.vecMulVec y (xplus x)
  c := fun i => s.c i + weight * y i * y i
  beta := s.beta + weight
  sum_xplus := fun j => s.sum_xplus j + weight * xplus x j
  sumsq_x := fun i => s.sumsq_x i + weight * x i * x i
  sumsq_diff := fun i =>
    s.sumsq_diff i + weight * x i * x i + weight * y i * y i
      - 2 * weight * (x i * y i)

/-- The row loop `for i in range(x_feats.num_rows)` of one utterance. -/
def addRows : MStats F d → List (Fin d → F) → List (Fin d → F) → List F →
    MStats F d
  | s, x :: xs, y :: ys, w :: ws => addRows (addFrame s w x y) xs ys ws
  | s, _, _, _ => s

/-- The zero-initialised accumulators. -/
def MStats.init (F : Type _) [LinearOrderedField F] (d : ℕ) : MStats F d :=
  ⟨0, 0, fun _ => 0, 0, fun _ => 0, fun _ => 0, fun _ => 0⟩

/-- The utterance loop `for utt in feats_untransformed` (vtln.py lines
305-343): looks up the paired transformed features (`ValueError` when
missing), checks the row counts agree (`ValueError` otherwise; the column
counts agree by typing), resolves the per-frame weights (uniform `1.0`
when `weights is None`, otherwise a dict lookup that must succeed and,
per kaldi `copy_`, must have one weight per row), and accumulates. -/
def accum_utts (feats_transformed : FeatsColl F d)
    (weights : Option (List (String × List F))) :
    MStats F d → FeatsColl F d → Except PyErr (MStats F d)
  | s, [] => .ok s
  | s, (utt, xrows) :: rest =>
    match dget feats_transformed utt with
    | none => .error .valueError
    | some yrows =>
      if xrows.length ≠ yrows.length then .error .valueError
      else
        match weights with
        | none =>
            accum_utts feats_transformed weights
              (addRows s xrows yrows (List.replicate xrows.length 1)) rest
        | some wd =>
          match dget wd utt with
          | none => .error .valueError
          | some ws =>
            if ws.length ≠ xrows.length then .error .valueError
            else accum_utts feats_transformed weights
              (addRows s xrows yrows ws) rest

/-- The whole accumulation phase of `compute_mapping_transform`. -/
def mapping_stats (feats_untransformed feats_transformed : FeatsColl F d)
    (weights : Option (List (String × List F))) : Except PyErr (MStats F d) :=
  accum_utts feats_transformed weights (MStats.init F d) feats_untransformed

/-- `Qinv.invert_()` (vtln.py lines 345-347): the nonsingular inverse,
written with the adjugate so that it is computable over `ℚ`; over a field
it agrees with Mathlib's `Matrix.inv`. -/
def matInv {n : ℕ} (A : Matrix (Fin n) (Fin n) F) : Matrix (Fin n) (Fin n) F :=
  A.det⁻¹ • A.adjugate

omit [DecidableEq F] in
theorem matInv_eq_inv {n : ℕ} (A : Matrix (Fin n) (Fin n) F) :
    matInv A = A⁻¹ := by
  rw [Matrix.inv_def, Ring.inverse_eq_inv]; rfl

/-- `w_i = Qinv @ l_i`, the per-row normal-equations solution (vtln.py
lines 349-354): the first `dim` components are the linear part, component
`dim` is the fitted offset. -/
def w_sol (s : MStats F d) (i : Fin d) : Fin (d + 1) → F :=
  (matInv s.Q).mulVec (fun j => s.L i j)

/-- `x_var = scatter - (sum_xplus[i]/beta)**2` (vtln.py lines 363-371). -/
def x_var (s : MStats F d) (i : Fin d) : F :=
  s.sumsq_x i / s.beta - (s.sum_xplus i.castSucc / s.beta) ^ 2

/-- `y_var = wᵢᵀ Q wᵢ / beta - (wᵢ·sum_xplus / beta)²` (vtln.py lines
372-377). -/
def y_var (s : MStats F d) (i : Fin d) : F :=
  Matrix.dotProduct (w_sol s i) (s.Q.mulVec (w_sol s i)) / s.beta
    - (Matrix.dotProduct (w_sol s i) s.sum_xplus / s.beta) ^ 2

/-- The matrix `A` written into the model: per row the first `dim`
components of `w_i` rescaled by `scale = sqrt(x_var/y_var)` (vtln.py
lines 355-356 and 378-379); the fitted offset `w_i[dim]` is dropped. -/
def mapping_matrix (fsqrt : F → F) (s : MStats F d) :
    Matrix (Fin d) (Fin d) F :=
  Matrix.of fun i j => fsqrt (x_var s i / y_var s i) * w_sol s i j.castSucc

/-- The solve/rescale phase of `compute_mapping_transform` (vtln.py lines
344-379): kaldi's `invert_` raises on an exactly singular `Q`; for `d > 0`
the first row's `error = (...)/beta` raises `ZeroDivisionError` when
`beta == 0`, and `x_var/y_var` raises `ZeroDivisionError` on the first row
whose `y_var` is exactly zero. -/
def finish_transform (fsqrt : F → F) (s : MStats F d) :
    Except PyErr (Matrix (Fin d) (Fin d) F) :=
  if s.Q.det = 0 then .error .kaldiError
  else if d ≠ 0 ∧ s.beta = 0 then .error .zeroDivision
  else if ∃ i, y_var s i = 0 then .error .zeroDivision
  else .ok (mapping_matrix fsqrt s)

/-- `VtlnProcessor.compute_mapping_transform` (vtln.py lines 259-381):
accumulate the weighted moments of the paired collections, solve the
per-row normal equations, renormalise each row's predicted variance to
the input variance, and write the resulting `dim × dim` matrix and the
warp value into class `class_idx` of the model. `fsqrt` stands for
`np.sqrt`. -/
def compute_mapping_transform (fsqrt : F → F) (m : LinearVtln F d)
    (feats_untransformed feats_transformed : FeatsColl F d)
    (class_idx : ℕ) (warp : F)
    (weights : Option (List (String × List F))) :
    Except PyErr (LinearVtln F d) := do
  let s ← mapping_stats feats_untransformed feats_transformed weights
  let A ← finish_transform fsqrt s
  .ok (m.set_transform_warp class_idx A warp)

end MappingTransform

/-- The estimator over actual floating-point data: floats modelled by `ℝ`
and `np.sqrt` by `Real.sqrt`. -/
noncomputable def compute_mapping_transform_real {d : ℕ}
    (m : LinearVtln ℝ d) (feats_untransformed feats_transformed : FeatsColl ℝ d)
    (class_idx : ℕ) (warp : ℝ)
    (weights : Option (List (String × List ℝ))) :
    Except PyErr (LinearVtln ℝ d) :=
  compute_mapping_transform Real.sqrt m feats_untransformed feats_transformed
    class_idx warp weights

section ScalingInvariance

variable {F : Type _} [LinearOrderedField F] [DecidableEq F] {d : ℕ}

/-- Per-utterance weights all multiplied by the same constant `k`. -/
def scale_weights (k : F) (wd : List (String × List F)) :
    List (String × List F) :=
  wd.map fun p => (p.1, p.2.map fun w => k * w)

/-- Componentwise rescaling of the accumulators: every statistic of
`compute_mapping_transform` is linear in the frame weights. -/
def MStats.scale (k : F) (s : MStats F d) : MStats F d where
  Q := k • s.Q
  L := k • s.L
  c := fun i => k * s.c i
  beta := k * s.beta
  sum_xplus := fun j => k * s.sum_xplus j
  sumsq_x := fun i => k * s.sumsq_x i
  sumsq_diff := fun i => k * s.sumsq_diff i

theorem dget_scale_weights (k : F) (wd : List (String × List F)) (u : String) :
    dget (scale_weights k wd) u =
      (dget wd u).map (List.map fun w => k * w) := by
  induction wd with
  | nil => rfl
  | cons p rest ih =>
    unfold scale_weights at ih ⊢
    by_cases h : u = p.1 <;> simp [dget, h, ih]

theorem addFrame_scale (k w : F) (x y : Fin d → F) (s : MStats F d) :
    addFrame (MStats.scale k s) (k * w) x y =
      MStats.scale k (addFrame s w x y) := by
  unfold addFrame MStats.scale
  simp only [MStats.mk.injEq]
  refine ⟨?_, ?_, ?_, by ring, ?_, ?_, ?_⟩
  · rw [smul_add, mul_smul]
  · rw [smul_add, mul_smul]
  · funext i; ring
  · funext j; ring
  · funext i; ring
  · funext i; ring

theorem addRows_scale (k : F) :
    ∀ (xs ys : List (Fin d → F)) (ws : List F) (s : MStats F d),
    addRows (MStats.scale k s) xs ys (ws.map fun w => k * w) =
      MStats.scale k (addRows s xs ys ws)
  | [], ys, ws, s => by cases ys <;> cases ws <;> rfl
  | x :: xs, [], ws, s => by cases ws <;> rfl
  | x :: xs, y :: ys, [], s => rfl
  | x :: xs, y :: ys, w :: ws, s => by
    simp only [List.map_cons, addRows]
    rw [addFrame_scale, addRows_scale k xs ys ws]

theorem accum_utts_scale (k : F) (ft : FeatsColl F d)
    (wd : List (String × List F)) :
    ∀ (l : FeatsColl F d) (s : MStats F d),
    accum_utts ft (some (scale_weights k wd)) (MStats.scale k s) l =
      (accum_utts ft (some wd) s l).map (MStats.scale k)
  | [], s => rfl
  | (utt, xrows) :: rest, s => by
    simp only [accum_utts]
    cases dget ft utt with
    | none => rfl
    | some yrows =>
      by_cases hlen : xrows.length ≠ yrows.length
      · simp [hlen, Except.map]
      · simp only [hlen, if_false, dget_scale_weights]
        cases hw : dget wd utt with
        | none => rfl
        | some ws =>
          by_cases hws : ws.length ≠ xrows.length
          · simp [hws, Except.map]
          · simp only [Option.map, List.length_map, hws, if_false]
            rw [addRows_scale, accum_utts_scale k ft wd rest]

theorem MStats.scale_init (k : F) :
    MStats.scale k (MStats.init F d) = MStats.init F d := by
  unfold MStats.scale MStats.init
  simp only [MStats.mk.injEq, smul_zero, mul_zero]

theorem mapping_stats_scale (k : F)
    (fu ft : FeatsColl F d) (wd : List (String × List F)) :
    mapping_stats fu ft (some (scale_weights k wd)) =
      (mapping_stats fu ft (some wd)).map (MStats.scale k) := by
  unfold mapping_stats
  conv_lhs => rw [← MStats.scale_init (d := d) k]
  rw [accum_utts_scale]

theorem matInv_smul {n : ℕ} (k : F) (hk : k ≠ 0)
    (A : Matrix (Fin (n + 1)) (Fin (n + 1)) F) :
    matInv (k • A) = k⁻¹ • matInv A := by
  unfold matInv
  rw [Matrix.det_smul, Matrix.adjugate_smul, Fintype.card_fin,
    Nat.add_sub_cancel, smul_smul, smul_smul]
  congr 1
  have hkn : (k ^ n)⁻¹ * k ^ n = 1 := inv_mul_cancel₀ (pow_ne_zero n hk)
  rw [mul_inv, pow_succ, mul_inv]
  calc (k ^ n)⁻¹ * k⁻¹ * A.det⁻¹ * k ^ n
      = k⁻¹ * A.det⁻¹ * ((k ^ n)⁻¹ * k ^ n) := by ring
    _ = k⁻¹ * A.det⁻¹ := by rw [hkn, mul_one]

theorem w_sol_scale (k : F) (hk : k ≠ 0) (s : MStats F d) (i : Fin d) :
    w_sol (MStats.scale k s) i = w_sol s i := by
  unfold w_sol
  show (matInv (k • s.Q)).mulVec (fun j => (k • s.L) i j) = _
  have hL : (fun j => (k • s.L) i j) = k • (fun j => s.L i j) := rfl
  rw [matInv_smul k hk, hL, Matrix.mulVec_smul, Matrix.smul_mulVec_assoc,
    smul_smul, mul_inv_cancel₀ hk, one_smul]

theorem x_var_scale (k : F) (hk : k ≠ 0) (s : MStats F d) (i : Fin d) :
    x_var (MStats.scale k s) i = x_var s i := by
  unfold x_var MStats.scale
  simp only
  rw [mul_div_mul_left _ _ hk, mul_div_mul_left _ _ hk]

theorem y_var_scale (k : F) (hk : k ≠ 0) (s : MStats F d) (i : Fin d) :
    y_var (MStats.scale k s) i = y_var s i := by
  unfold y_var
  rw [w_sol_scale k hk]
  show Matrix.dotProduct (w_sol s i) ((k • s.Q).mulVec (w_sol s i)) / (k * s.beta)
      - (Matrix.dotProduct (w_sol s i) (k • s.sum_xplus) / (k * s.beta)) ^ 2 = _
  rw [Matrix.smul_mulVec_assoc, Matrix.dotProduct_smul, Matrix.dotProduct_smul,
    smul_eq_mul, smul_eq_mul, mul_div_mul_left _ _ hk, mul_div_mul_left _ _ hk]

theorem mapping_matrix_scale (fsqrt : F → F) (k : F) (hk : k ≠ 0)
    (s : MStats F d) :
    mapping_matrix fsqrt (MStats.scale k s) = mapping_matrix fsqrt s := by
  unfold mapping_matrix
  funext i j
  rw [Matrix.of_apply, Matrix.of_apply, x_var_scale k hk, y_var_scale k hk,
    w_sol_scale k hk]

theorem finish_transform_scale (fsqrt : F → F) (k : F) (hk : k ≠ 0)
    (s : MStats F d) :
    finish_transform fsqrt (MStats.scale k s) = finish_transform fsqrt s := by
  unfold finish_transform
  have hdet : ((MStats.scale k s).Q.det = 0) ↔ (s.Q.det = 0) := by
    show ((k • s.Q).det = 0) ↔ _
    rw [Matrix.det_smul, mul_eq_zero]
    simp [pow_ne_zero _ hk]
  have hbeta : (d ≠ 0 ∧ (MStats.scale k s).beta = 0) ↔ (d ≠ 0 ∧ s.beta = 0) := by
    refine and_congr Iff.rfl ?_
    show (k * s.beta = 0) ↔ _
    simp [mul_eq_zero, hk]
  have hy : (∃ i, y_var (MStats.scale k s) i = 0) ↔ (∃ i, y_var s i = 0) :=
    exists_congr fun i => by rw [y_var_scale k hk]
  exact if_congr hdet rfl
    (if_congr hbeta rfl
      (if_congr hy rfl (congrArg Except.ok (mapping_matrix_scale fsqrt k hk s))))

theorem compute_mapping_transform_scale (fsqrt : F → F) (m : LinearVtln F d)
    (fu ft : FeatsColl F d) (class_idx : ℕ) (warp : F)
    (wd : List (String × List F)) (k : F) (hk : k ≠ 0) :
    compute_mapping_transform fsqrt m fu ft class_idx warp
        (some (scale_weights k wd)) =
      compute_mapping_transform fsqrt m fu ft class_idx warp (some wd) := by
  unfold compute_mapping_transform
  rw [mapping_stats_scale k]
  cases h : mapping_stats fu ft (some wd) with
  | error e => rfl
  | ok s =>
    show Except.bind _ _ = Except.bind _ _
    simp only [Except.map, Except.bind, finish_transform_scale fsqrt k hk s]

end ScalingInvariance

/-- C4: `compute_mapping_transform` writes exactly the same transform matrix
and warp value into the target class when every per-utterance weight is
rescaled by the same constant `k > 0` — in fact the whole call (including
every error case) is unchanged.  The weighted moments all scale linearly in
`k`, which cancels in the normal-equations solve and in both variance
ratios. -/
theorem claim_C4_weight_scaling {d : ℕ} (m : LinearVtln ℝ d)
    (feats_untransformed feats_transformed : FeatsColl ℝ d)
    (class_idx : ℕ) (warp : ℝ) (wd : List (String × List ℝ))
    (k : ℝ) (hk : 0 < k) :
    compute_mapping_transform_real m feats_untransformed feats_transformed
        class_idx warp (some (scale_weights k wd)) =
      compute_mapping_transform_real m feats_untransformed feats_transformed
        class_idx warp (some wd) :=
  compute_mapping_transform_scale Real.sqrt m feats_untransformed
    feats_transformed class_idx warp wd k hk.ne'

/-- C4 (witness): the invariance applied at a concrete one-dimensional
input with `k = 2`. -/
theorem claim_C4_weight_scaling_witness :
    compute_mapping_transform_real (⟨[(1, 1)]⟩ : LinearVtln ℝ 1)
        [("a", [![0], ![1]])] [("a", [![0], ![2]])] 0 1
        (some (scale_weights 2 [("a", [1, 1])])) =
      compute_mapping_transform_real (⟨[(1, 1)]⟩ : LinearVtln ℝ 1)
        [("a", [![0], ![1]])] [("a", [![0], ![2]])] 0 1
        (some [("a", [1, 1])]) :=
  claim_C4_weight_scaling (⟨[(1, 1)]⟩ : LinearVtln ℝ 1)
    [("a", [![0], ![1]])] [("a", [![0], ![2]])] 0 1 [("a", [1, 1])] 2 two_pos

section IdentityFit

variable {F : Type _} [LinearOrderedField F] [DecidableEq F] {d : ℕ}

/-- Structural facts about the accumulators that hold whenever every frame
pair satisfies `y = x` (identity warp): row `i` of `l` equals row
`castSucc i` of `Q`, the diagonal input moments match `Q`'s diagonal, and
`Q` is symmetric. -/
def MStats.IdInvariant (s : MStats F d) : Prop :=
  (∀ (i : Fin d) (j : Fin (d + 1)), s.L i j = s.Q i.castSucc j) ∧
  (∀ i : Fin d, s.sumsq_x i = s.Q i.castSucc i.castSucc) ∧
  s.Q.IsSymm

theorem MStats.init_id_invariant : (MStats.init F d).IdInvariant := by
  refine ⟨fun i j => rfl, fun i => rfl, ?_⟩
  simp [Matrix.IsSymm, MStats.init]

theorem addFrame_id_invariant {s : MStats F d} (w : F) (x : Fin d → F)
    (h : s.IdInvariant) : (addFrame s w x x).IdInvariant := by
  obtain ⟨hL, hsq, hsymm⟩ := h
  refine ⟨?_, ?_, ?_⟩
  · intro i j
    show s.L i j + (w • Matrix.vecMulVec x (xplus x)) i j
        = s.Q i.castSucc j + (w • Matrix.vecMulVec (xplus x) (xplus x)) i.castSucc j
    rw [hL i j]
    congr 1
    simp [Matrix.vecMulVec_apply, xplus, Fin.snoc_castSucc]
  · intro i
    show s.sumsq_x i + w * x i * x i
        = s.Q i.castSucc i.castSucc
          + (w • Matrix.vecMulVec (xplus x) (xplus x)) i.castSucc i.castSucc
    rw [hsq i]
    congr 1
    simp [Matrix.vecMulVec_apply, xplus, Fin.snoc_castSucc, mul_assoc]
  · show (s.Q + w • Matrix.vecMulVec (xplus x) (xplus x)).IsSymm
    refine Matrix.IsSymm.add hsymm ?_
    unfold Matrix.IsSymm
    funext a b
    simp [Matrix.vecMulVec_apply, mul_comm]

theorem addRows_id_invariant :
    ∀ (xs : List (Fin d → F)) (ws : List F) {s : MStats F d},
    s.IdInvariant → (addRows s xs xs ws).IdInvariant
  | [], ws, s, h => by cases ws <;> exact h
  | x :: xs, [], s, h => h
  | x :: xs, w :: ws, s, h =>
    addRows_id_invariant xs ws (addFrame_id_invariant w x h)

/-- In a dict (no duplicate keys), looking up the key of any entry returns
that entry's value. -/
theorem dget_of_nodup {α : Type _} :
    ∀ {l : List (String × α)}, (l.map Prod.fst).Nodup →
    ∀ p ∈ l, dget l p.1 = some p.2
  | [], _, p, hp => absurd hp (List.not_mem_nil p)
  | q :: rest, hnd, p, hp => by
    rw [List.map_cons, List.nodup_cons] at hnd
    rcases List.mem_cons.mp hp with h | h
    · subst h; simp [dget]
    · have hne : p.1 ≠ q.1 := by
        intro he
        exact hnd.1 (he ▸ List.mem_map_of_mem Prod.fst h)
      simp only [dget, if_neg hne]
      exact dget_of_nodup hnd.2 p h

/-- Accumulating a collection against itself preserves the identity-warp
invariant. -/
theorem accum_self_invariant (feats : FeatsColl F d) :
    ∀ (l : FeatsColl F d) (s s' : MStats F d),
    (∀ p ∈ l, dget feats p.1 = some p.2) →
    accum_utts feats none s l = .ok s' → s.IdInvariant → s'.IdInvariant
  | [], s, s', _, hacc, h => by
    injection hacc with h'; exact h' ▸ h
  | (utt, xrows) :: rest, s, s', hget, hacc, h => by
    have h1 : dget feats utt = some xrows := hget (utt, xrows) (List.mem_cons_self _ _)
    rw [accum_utts, h1] at hacc
    simp only [ne_eq, not_true_eq_false, if_false, ite_false, if_neg] at hacc
    exact accum_self_invariant feats rest _ s'
      (fun p hp => hget p (List.mem_cons_of_mem _ hp)) hacc
      (addRows_id_invariant xrows _ h)

/-- Under the identity-warp invariant and a nonsingular `Q`, the
normal-equations solution for row `i` is the `castSucc i`-th standard basis
vector: linear part `e_i`, offset exactly `0`. -/
theorem w_sol_of_id_invariant {s : MStats F d} (hP : s.IdInvariant)
    (hdet : s.Q.det ≠ 0) (i : Fin d) :
    w_sol s i = Pi.single i.castSucc 1 := by
  have hQ : matInv s.Q * s.Q = 1 := by
    rw [matInv_eq_inv]
    exact Matrix.nonsing_inv_mul _ (isUnit_iff_ne_zero.mpr hdet)
  funext a
  show Matrix.dotProduct (matInv s.Q a) (fun j => s.L i j) = _
  calc Matrix.dotProduct (matInv s.Q a) (fun j => s.L i j)
      = ∑ j, matInv s.Q a j * s.Q.transpose j i.castSucc := by
        unfold Matrix.dotProduct
        refine Finset.sum_congr rfl fun j _ => ?_
        show matInv s.Q a j * s.L i j = _
        rw [hP.1 i j, Matrix.transpose_apply]
    _ = (matInv s.Q * s.Q.transpose) a i.castSucc := (Matrix.mul_apply).symm
    _ = (1 : Matrix (Fin (d + 1)) (Fin (d + 1)) F) a i.castSucc := by
        rw [hP.2.2, hQ]
    _ = (Pi.single i.castSucc (1 : F) : Fin (d + 1) → F) a := by
        rw [Matrix.one_apply, Pi.single_apply]

/-- Under the identity-warp invariant, the predicted variance equals the
input variance in every dimension. -/
theorem y_var_eq_x_var_of_id {s : MStats F d} (hP : s.IdInvariant)
    (hdet : s.Q.det ≠ 0) (i : Fin d) : y_var s i = x_var s i := by
  unfold y_var x_var
  rw [w_sol_of_id_invariant hP hdet i]
  rw [Matrix.mulVec_single, Matrix.single_dotProduct, Matrix.single_dotProduct]
  simp only [mul_one, one_mul]
  rw [← hP.2.1 i]

theorem mapping_matrix_of_id {fsqrt : F → F} (hsq : fsqrt 1 = 1)
    {s : MStats F d} (hP : s.IdInvariant) (hdet : s.Q.det ≠ 0)
    (hx : ∀ i, x_var s i ≠ 0) : mapping_matrix fsqrt s = 1 := by
  funext i j
  rw [mapping_matrix, Matrix.of_apply, y_var_eq_x_var_of_id hP hdet i,
    div_self (hx i), hsq, one_mul, w_sol_of_id_invariant hP hdet i,
    Pi.single_apply]
  rw [Matrix.one_apply]
  exact if_congr ⟨fun h => (Fin.castSucc_injective d h).symm,
    fun h => congrArg Fin.castSucc h.symm⟩ rfl rfl

end IdentityFit

/-- C5: when `compute_mapping_transform` is called with
`feats_transformed == feats_untransformed` (identity warp) and uniform
weights (`weights=None`), then — provided the accumulated data is
nondegenerate (`Q` nonsingular, nonzero total weight, nonzero input
variances, which is exactly when the call does not raise) — the transform
written into the target class is exactly the identity matrix, and the
fitted offset `w_i[dim]` of every row is exactly `0`.  Stated over any
ordered field with any square root satisfying `sqrt 1 = 1`; in particular
it holds for floats idealised as `ℝ` with `np.sqrt = Real.sqrt`. -/
theorem claim_C5_identity_transform {F : Type _} [LinearOrderedField F]
    [DecidableEq F] {d : ℕ} (fsqrt : F → F) (hsq : fsqrt 1 = 1)
    (m : LinearVtln F d) (feats : FeatsColl F d) (class_idx : ℕ) (warp : F)
    (hnd : (feats.map Prod.fst).Nodup)
    (s : MStats F d) (hs : mapping_stats feats feats none = .ok s)
    (hdet : s.Q.det ≠ 0) (hbeta : s.beta ≠ 0) (hx : ∀ i, x_var s i ≠ 0) :
    compute_mapping_transform fsqrt m feats feats class_idx warp none =
      .ok (m.set_transform_warp class_idx 1 warp) ∧
    ∀ i, w_sol s i (Fin.last d) = 0 := by
  have hP : s.IdInvariant :=
    accum_self_invariant feats feats (MStats.init F d) s
      (dget_of_nodup (by exact hnd)) hs MStats.init_id_invariant
  constructor
  · unfold compute_mapping_transform
    rw [hs]
    have hfin : finish_transform fsqrt s = .ok 1 := by
      unfold finish_transform
      rw [if_neg hdet, if_neg (fun h => hbeta h.2), if_neg ?_,
        mapping_matrix_of_id hsq hP hdet hx]
      rintro ⟨i, hi⟩
      rw [y_var_eq_x_var_of_id hP hdet i] at hi
      exact hx i hi
    show Except.bind (Except.ok s) _ = _
    simp only [Except.bind, hfin]
    rfl
  · intro i
    rw [w_sol_of_id_invariant hP hdet i, Pi.single_apply,
      if_neg (Fin.castSucc_lt_last i).ne']

/-- Concrete witness data (dimension 1): one utterance with two frames,
feature values 0 and 2. -/
def id_fit_feats : FeatsColl ℚ 1 := [("a", [![0], ![2]])]

/-- The accumulators obtained when `id_fit_feats` is paired with itself. -/
def id_fit_stats : MStats ℚ 1 :=
  addRows (MStats.init ℚ 1) [![0], ![2]] [![0], ![2]] (List.replicate 2 1)

theorem id_fit_stats_spec :
    mapping_stats id_fit_feats id_fit_feats none = .ok id_fit_stats := rfl

theorem id_fit_stats_Q : id_fit_stats.Q = !![4, 2; 2, 2] := by
  funext i j
  fin_cases i <;> fin_cases j <;>
    simp [id_fit_stats, addRows, addFrame, MStats.init,
      Matrix.vecMulVec_apply, xplus, Fin.snoc] <;> norm_num

theorem id_fit_stats_det : id_fit_stats.Q.det ≠ 0 := by
  rw [id_fit_stats_Q, Matrix.det_fin_two_of]; norm_num

theorem id_fit_stats_beta : id_fit_stats.beta = 2 := by
  simp [id_fit_stats, addRows, addFrame, MStats.init]
  norm_num

theorem id_fit_stats_x_var : ∀ i, x_var id_fit_stats i ≠ 0 := by
  intro i
  fin_cases i
  simp [x_var, id_fit_stats, addRows, addFrame, MStats.init, xplus,
    Fin.snoc_castSucc, Fin.snoc]
  norm_num

/-- C5 (witness): the identity-fit theorem applied to concrete
one-dimensional data (frames 0 and 2, identity pairing, uniform weights),
instantiated over `ℚ` with the identity square root (`sqrt 1 = 1` is all
the theorem uses). -/
theorem claim_C5_identity_transform_witness :
    compute_mapping_transform (fun x => x) (⟨[(0, 0)]⟩ : LinearVtln ℚ 1)
        id_fit_feats id_fit_feats 0 1 none =
      .ok ((⟨[(0, 0)]⟩ : LinearVtln ℚ 1).set_transform_warp 0 1 1) ∧
    ∀ i, w_sol id_fit_stats i (Fin.last 1) = 0 :=
  claim_C5_identity_transform (fun x => x) rfl ⟨[(0, 0)]⟩ id_fit_feats 0 1
    (by simp [id_fit_feats]) id_fit_stats id_fit_stats_spec id_fit_stats_det
    (by rw [id_fit_stats_beta]; norm_num) id_fit_stats_x_var

/-- C9: whenever `compute_mapping_transform` succeeds, the object written
into the target class is the `dim × dim` matrix whose `(i, j)` entry is
`scale_i * w_i[j]` with `j` ranging over the first `dim` components only
(`Fin.castSucc j`): the last component `w_i[dim]` of each per-row
normal-equations solution — the fitted offset — is discarded before
`set_transform`, so base class transforms carry no offset term. -/
theorem claim_C9_offset_discarded {F : Type _} [LinearOrderedField F]
    [DecidableEq F] {d : ℕ} (fsqrt : F → F) (m : LinearVtln F d)
    (feats_untransformed feats_transformed : FeatsColl F d)
    (class_idx : ℕ) (warp : F) (weights : Option (List (String × List F)))
    (s : MStats F d)
    (hs : mapping_stats feats_untransformed feats_transformed weights = .ok s)
    (m' : LinearVtln F d)
    (hm : compute_mapping_transform fsqrt m feats_untransformed
        feats_transformed class_idx warp weights = .ok m') :
    m' = m.set_transform_warp class_idx
      (Matrix.of fun i j => fsqrt (x_var s i / y_var s i) *
        (matInv s.Q).mulVec (fun j' => s.L i j') (Fin.castSucc j)) warp := by
  unfold compute_mapping_transform at hm
  rw [hs] at hm
  replace hm : Except.bind (finish_transform fsqrt s)
      (fun A => Except.ok (m.set_transform_warp class_idx A warp)) =
        Except.ok m' := hm
  show m' = m.set_transform_warp class_idx (mapping_matrix fsqrt s) warp
  unfold finish_transform at hm
  by_cases h1 : s.Q.det = 0
  · rw [if_pos h1] at hm
    exact Except.noConfusion hm
  rw [if_neg h1] at hm
  by_cases h2 : d ≠ 0 ∧ s.beta = 0
  · rw [if_pos h2] at hm
    exact Except.noConfusion hm
  rw [if_neg h2] at hm
  by_cases h3 : ∃ i, y_var s i = 0
  · rw [if_pos h3] at hm
    exact Except.noConfusion hm
  rw [if_neg h3] at hm
  simp only [Except.bind] at hm
  injection hm with h
  exact h.symm

/-- Concrete witness data: the frames of `id_fit_feats` shifted by the
constant offset `+1` — the least-squares fit is `y = 1·x + 1`, with a
nonzero fitted offset. -/
def shift_yfeats : FeatsColl ℚ 1 := [("a", [![1], ![3]])]

/-- The accumulators for the pair `(id_fit_feats, shift_yfeats)`. -/
def shift_stats : MStats ℚ 1 :=
  addRows (MStats.init ℚ 1) [![0], ![2]] [![1], ![3]] (List.replicate 2 1)

theorem shift_stats_spec :
    mapping_stats id_fit_feats shift_yfeats none = .ok shift_stats := rfl

theorem shift_stats_Q : shift_stats.Q = !![4, 2; 2, 2] := by
  funext i j
  fin_cases i <;> fin_cases j <;>
    simp [shift_stats, addRows, addFrame, MStats.init,
      Matrix.vecMulVec_apply, xplus, Fin.snoc] <;> norm_num

theorem shift_stats_det : shift_stats.Q.det ≠ 0 := by
  rw [shift_stats_Q, Matrix.det_fin_two_of]; norm_num

theorem shift_stats_matInv : matInv shift_stats.Q = !![1/2, -1/2; -1/2, 1] := by
  rw [matInv, shift_stats_Q, Matrix.det_fin_two_of, Matrix.adjugate_fin_two_of]
  funext i j
  fin_cases i <;> fin_cases j <;> simp <;> norm_num

theorem shift_w_sol : w_sol shift_stats 0 = ![1, 1] := by
  unfold w_sol
  rw [shift_stats_matInv]
  funext a
  fin_cases a <;>
    simp [Matrix.mulVec, Matrix.dotProduct, Fin.sum_univ_two, shift_stats,
      addRows, addFrame, MStats.init, Matrix.vecMulVec_apply, xplus,
      Fin.snoc] <;> norm_num

theorem shift_y_var : y_var shift_stats 0 = 1 := by
  unfold y_var
  rw [shift_w_sol, shift_stats_Q]
  simp [Matrix.mulVec, Matrix.dotProduct, Fin.sum_univ_two, shift_stats,
    addRows, addFrame, MStats.init, xplus, Fin.snoc]
  norm_num

theorem shift_finish :
    compute_mapping_transform (fun x => x) (⟨[(0, 0)]⟩ : LinearVtln ℚ 1)
        id_fit_feats shift_yfeats 0 1 none =
      .ok ((⟨[(0, 0)]⟩ : LinearVtln ℚ 1).set_transform_warp 0
        (mapping_matrix (fun x => x) shift_stats) 1) := by
  unfold compute_mapping_transform
  rw [shift_stats_spec]
  show Except.bind (finish_transform _ shift_stats) _ = _
  unfold finish_transform
  rw [if_neg shift_stats_det, if_neg (fun h => absurd h.2 ?_), if_neg ?_]
  · rfl
  · rintro ⟨i, hi⟩
    rw [Subsingleton.elim i 0, shift_y_var] at hi
    exact one_ne_zero hi
  · show shift_stats.beta ≠ 0
    simp [shift_stats, addRows, addFrame, MStats.init]

/-- C9 (witness): the characterization applied to concrete data whose
least-squares fit is `y = x + 1`: the fitted offset `w_0[1]` equals `1`
(nonzero), yet the matrix written into the class reads only the
`castSucc` components of the solution. -/
theorem claim_C9_offset_discarded_witness :
    ((⟨[(0, 0)]⟩ : LinearVtln ℚ 1).set_transform_warp 0
        (mapping_matrix (fun x => x) shift_stats) 1 =
      (⟨[(0, 0)]⟩ : LinearVtln ℚ 1).set_transform_warp 0
        (Matrix.of fun i j => (fun x => x) (x_var shift_stats i / y_var shift_stats i) *
          (matInv shift_stats.Q).mulVec (fun j' => shift_stats.L i j')
            (Fin.castSucc j)) 1) ∧
    w_sol shift_stats 0 (Fin.last 1) = 1 :=
  ⟨claim_C9_offset_discarded (fun x => x) ⟨[(0, 0)]⟩ id_fit_feats shift_yfeats
      0 1 none shift_stats shift_stats_spec _ shift_finish,
    by rw [shift_w_sol]; rfl⟩

section EstimateTransforms

/-- The content of a per-unit fMLLR statistics accumulator
(`kaldi.transform.mllr.FmllrDiagGmmAccs`): the full sequence of
`accumulate_from_posteriors_preselect` calls, each a frame paired with its
`(gaussian index, weight)` posterior entries. -/
abbrev AccObs (d : ℕ) := List ((Fin d → ℚ) × List (ℕ × ℚ))

/-- The zeroth-order statistic `beta` of the accumulator: the sum of all
posterior weights, which is the soft frame count of the unit. -/
def acc_beta {d : ℕ} (obs : AccObs d) : ℚ :=
  (obs.map fun pr => (pr.2.map Prod.snd).sum).sum

/-- Posteriors as passed to `estimate`: for each utterance, per frame a
list of `(gaussian_index, weight)` pairs (vtln.py line 398). -/
abbrev PostColl := List (String × List (List (ℕ × ℚ)))

/-- Per-unit transforms returned by `estimate`: `dim × (dim+1)` fMLLR
matrices. -/
abbrev TransColl (d : ℕ) := List (String × Matrix (Fin d) (Fin (d + 1)) ℚ)

/-- The accumulation loop over the utterances of one unit (vtln.py lines
423-441 and 463-482): missing posterior and posterior-length mismatch
raise `ValueError`; otherwise each frame is accumulated with its
posterior entries. -/
def unit_obs {d : ℕ} (posteriors : PostColl) :
    List (String × List (Fin d → ℚ)) → Except PyErr (AccObs d)
  | [] => .ok []
  | (utt, rows) :: rest =>
    match dget posteriors utt with
    | none => .error .valueError
    | some post =>
      if post.length ≠ rows.length then .error .valueError
      else do
        let tail ← unit_obs posteriors rest
        .ok (rows.zip post ++ tail)

/-- Modelled from the spec: `FeaturesCollection.partition(utt2speak)` is a
collaborator outside the studied file; per the spec it groups the
collection's utterances by speaker (each unit pools all utterances of one
speaker) and fails when an utterance carries no speaker entry. -/
def partition {β : Type _} (feats : List (String × β))
    (utt2speak : List (String × String)) :
    Except PyErr (List (String × List (String × β))) :=
  if ∀ p ∈ feats, (dget utt2speak p.1).isSome then
    .ok (((feats.filterMap fun p => dget utt2speak p.1).dedup).map fun spk =>
      (spk, feats.filter fun p => dget utt2speak p.1 = some spk))
  else .error .valueError

/-- The per-unit loop of `estimate` (vtln.py lines 419-460 for the
speaker branch, 463-501 for the utterance branch), with kaldi's
`LinearVtln.compute_transform` abstracted by the oracle `ct` returning
`(class index, fMLLR transform, objective improvement)`; modelled from
the spec, the count it reports is the accumulated frame count `beta` of
the unit's statistics.  After computing each unit's transform the code
divides `objf_impr / count` (a `ZeroDivisionError` when the unit's count
is zero — Python float division raises on an exactly-zero denominator),
and after the last unit it divides `tot_lvtln_impr/tot_t`
(a `ZeroDivisionError` when the total count is zero). `get_warp` with an
out-of-range class index is a kaldi assertion failure. -/
def est_units {d : ℕ} {G : Type _}
    (ct : G → AccObs d → ℕ × Matrix (Fin d) (Fin (d + 1)) ℚ × ℚ)
    (m : LinearVtln ℚ d) (gmm : G) (posteriors : PostColl) :
    List (String × List (String × List (Fin d → ℚ))) → ℚ → ℚ →
    Except PyErr (TransColl d × List (String × ℚ))
  | [], _, tot_t =>
    if tot_t = 0 then .error .zeroDivision else .ok ([], [])
  | (unit, ufeats) :: rest, tot_impr, tot_t =>
    match unit_obs posteriors ufeats with
    | .error e => .error e
    | .ok obs =>
      match m.get_warp (ct gmm obs).1 with
      | none => .error .kaldiError
      | some warp =>
        if acc_beta obs = 0 then .error .zeroDivision
        else
          match est_units ct m gmm posteriors rest
              (tot_impr + (ct gmm obs).2.2) (tot_t + acc_beta obs) with
          | .error e => .error e
          | .ok (ts, ws) =>
            .ok ((unit, (ct gmm obs).2.1) :: ts, (unit, warp) :: ws)

/-- `VtlnProcessor.estimate` (vtln.py lines 383-509): per-speaker units
when `utt2speak` is supplied (features partitioned by speaker), else one
unit per utterance; returns the per-unit transforms and warps. -/
def estimate {d : ℕ} {G : Type _}
    (ct : G → AccObs d → ℕ × Matrix (Fin d) (Fin (d + 1)) ℚ × ℚ)
    (m : LinearVtln ℚ d) (gmm : G) (feats_collection : FeatsColl ℚ d)
    (posteriors : PostColl)
    (utt2speak : Option (List (String × String))) :
    Except PyErr (TransColl d × List (String × ℚ)) :=
  match utt2speak with
  | some u2s =>
    match partition feats_collection u2s with
    | .error e => .error e
    | .ok groups => est_units ct m gmm posteriors groups 0 0
  | none =>
    est_units ct m gmm posteriors
      (feats_collection.map fun p => (p.1, [p])) 0 0

/-- The soft frame count contributed by one utterance. -/
def unit_beta {d : ℕ} (posteriors : PostColl)
    (p : String × List (Fin d → ℚ)) : ℚ :=
  match dget posteriors p.1 with
  | none => 0
  | some post => acc_beta (p.2.zip post)

/-- The total accumulated frame count over a collection. -/
def total_beta {d : ℕ} (posteriors : PostColl) (feats : FeatsColl ℚ d) : ℚ :=
  (feats.map (unit_beta posteriors)).sum

theorem acc_beta_append {d : ℕ} (a b : AccObs d) :
    acc_beta (a ++ b) = acc_beta a + acc_beta b := by
  simp [acc_beta]

theorem unit_obs_beta {d : ℕ} (posteriors : PostColl) :
    ∀ ufeats : List (String × List (Fin d → ℚ)),
    (∀ p ∈ ufeats, ∃ post, dget posteriors p.1 = some post ∧
      post.length = p.2.length) →
    ∃ obs, unit_obs posteriors ufeats = .ok obs ∧
      acc_beta obs = (ufeats.map (unit_beta posteriors)).sum
  | [], _ => ⟨[], rfl, rfl⟩
  | (utt, rows) :: rest, h => by
    obtain ⟨post, hpost, hlen⟩ := h (utt, rows) (List.mem_cons_self _ _)
    obtain ⟨tail, htail, hbeta⟩ :=
      unit_obs_beta posteriors rest fun p hp => h p (List.mem_cons_of_mem _ hp)
    refine ⟨rows.zip post ++ tail, ?_, ?_⟩
    · simp only [unit_obs, hpost]
      rw [if_neg fun hh => hh hlen, htail]
      rfl
    · rw [acc_beta_append, hbeta, List.map_cons, List.sum_cons]
      congr 1
      simp [unit_beta, hpost]

theorem sum_filter_split (f : α → ℚ) (p : α → Bool) :
    ∀ l : List α,
    ((l.filter p).map f).sum + ((l.filter fun a => !(p a)).map f).sum =
      (l.map f).sum
  | [] => by simp
  | a :: l => by
    have ih := sum_filter_split f p l
    by_cases hpa : p a = true
    · rw [List.filter_cons_of_pos (by simp [hpa]),
        List.filter_cons_of_neg (by simp [hpa])]
      simp only [List.map_cons, List.sum_cons]
      linarith
    · rw [List.filter_cons_of_neg (by simp [hpa]),
        List.filter_cons_of_pos (by simp [hpa])]
      simp only [List.map_cons, List.sum_cons]
      linarith

/-- Splitting a weighted sum over a list into the groups of a
deduplicated classifier list. -/
theorem sum_groups (f : α → ℚ) (g : α → Option String) :
    ∀ (ss : List String) (l : List α), ss.Nodup →
    (∀ a ∈ l, ∃ s ∈ ss, g a = some s) →
    (ss.map fun s => ((l.filter fun a => g a = some s).map f).sum).sum =
      (l.map f).sum
  | [], l, _, hcov => by
    have hl : l = [] := by
      refine List.eq_nil_iff_forall_not_mem.mpr fun a ha => ?_
      obtain ⟨s, hs, _⟩ := hcov a ha
      exact List.not_mem_nil s hs
    subst hl; rfl
  | s :: rest, l, hnd, hcov => by
    rw [List.nodup_cons] at hnd
    rw [List.map_cons, List.sum_cons]
    have hmain := sum_filter_split f (fun a => g a = some s) l
    set l' := l.filter fun a => !(decide (g a = some s)) with hl'
    have hsame : ∀ s' ∈ rest,
        (l.filter fun a => g a = some s') =
          (l'.filter fun a => g a = some s') := by
      intro s' hs'
      rw [hl', List.filter_filter]
      refine (List.filter_congr fun a _ => ?_).symm
      by_cases hga : g a = some s'
      · have hss : s' ≠ s := fun he => hnd.1 (he ▸ hs')
        simp [hga, hss]
      · simp [hga]
    have hrest :
        (rest.map fun s' => ((l.filter fun a => g a = some s').map f).sum).sum =
          (l'.map f).sum := by
      rw [List.map_congr_left fun s' hs' => by rw [hsame s' hs']]
      refine sum_groups f g rest l' hnd.2 fun a ha => ?_
      have hal : a ∈ l := List.mem_of_mem_filter ha
      obtain ⟨s'', hs'', hga⟩ := hcov a hal
      rcases List.mem_cons.mp hs'' with h | h
      · exfalso
        have := List.of_mem_filter ha
        rw [hga, h] at this
        simp at this
      · exact ⟨s'', h, hga⟩
    rw [hrest]
    linarith [hmain]

end EstimateTransforms

theorem partition_ok {β : Type _} (feats : List (String × β))
    (u2s : List (String × String))
    (hsp : ∀ p ∈ feats, (dget u2s p.1).isSome) :
    partition feats u2s = .ok
      (((feats.filterMap fun p => dget u2s p.1).dedup).map fun spk =>
        (spk, feats.filter fun p => dget u2s p.1 = some spk)) := by
  unfold partition
  rw [if_pos hsp]

theorem partition_sum {β : Type _} (feats : List (String × β))
    (u2s : List (String × String))
    (hsp : ∀ p ∈ feats, (dget u2s p.1).isSome) (f : String × β → ℚ) :
    ((((feats.filterMap fun p => dget u2s p.1).dedup).map fun spk =>
        (spk, feats.filter fun p => dget u2s p.1 = some spk)).map
      fun g => (g.2.map f).sum).sum = (feats.map f).sum := by
  rw [List.map_map]
  refine sum_groups f (fun p => dget u2s p.1) _ feats
    (List.nodup_dedup _) fun a ha => ?_
  obtain ⟨sa, hsa⟩ := Option.isSome_iff_exists.mp (hsp a ha)
  exact ⟨sa, List.mem_dedup.mpr (List.mem_filterMap.mpr ⟨a, ha, hsa⟩), hsa⟩

/-- If the running total plus all remaining units' frame counts is zero,
the per-unit loop necessarily ends in `ZeroDivisionError`: either some
unit's own count is zero (the per-unit `objf_impr / count`), or the final
`tot_lvtln_impr/tot_t` divides by a zero total. -/
theorem est_units_zero {d : ℕ} {G : Type _}
    (ct : G → AccObs d → ℕ × Matrix (Fin d) (Fin (d + 1)) ℚ × ℚ)
    (m : LinearVtln ℚ d) (gmm : G) (posteriors : PostColl)
    (hct : ∀ obs, (m.get_warp (ct gmm obs).1).isSome) :
    ∀ (units : List (String × List (String × List (Fin d → ℚ)))) (ti tt : ℚ),
    (∀ u ∈ units, ∀ p ∈ u.2, ∃ post, dget posteriors p.1 = some post ∧
      post.length = p.2.length) →
    tt + (units.map fun u => (u.2.map (unit_beta posteriors)).sum).sum = 0 →
    est_units ct m gmm posteriors units ti tt = .error .zeroDivision
  | [], ti, tt, _, htot => by
    unfold est_units
    rw [if_pos (by simpa using htot)]
  | (unit, ufeats) :: rest, ti, tt, hwf, htot => by
    obtain ⟨obs, hobs, hbeta⟩ := unit_obs_beta posteriors ufeats
      (hwf (unit, ufeats) (List.mem_cons_self _ _))
    obtain ⟨warp, hwarp⟩ := Option.isSome_iff_exists.mp (hct obs)
    simp only [est_units, hobs, hwarp]
    by_cases hb : acc_beta obs = 0
    · rw [if_pos hb]
    · rw [if_neg hb]
      have htot' : (tt + acc_beta obs) +
          (rest.map fun u => (u.2.map (unit_beta posteriors)).sum).sum = 0 := by
        rw [List.map_cons, List.sum_cons] at htot
        rw [hbeta]
        linarith
      rw [est_units_zero ct m gmm posteriors hct rest
        (ti + (ct gmm obs).2.2) (tt + acc_beta obs)
        (fun u hu => hwf u (List.mem_cons_of_mem _ hu)) htot']

/-- C10: whenever the total accumulated frame count over all units is zero
(for example an empty feature collection, or units whose posteriors carry
zero total weight), `estimate` raises `ZeroDivisionError` from the
per-frame improvement computations (`objf_impr / count` per unit, or the
final `tot_lvtln_impr/tot_t`) instead of returning transform and warp
mappings.  The well-formedness hypotheses say that no earlier
`ValueError` (missing posterior, posterior length mismatch, missing
speaker) or kaldi assertion (out-of-range class) fires first. -/
theorem claim_C10_zero_total_count {d : ℕ} {G : Type _}
    (ct : G → AccObs d → ℕ × Matrix (Fin d) (Fin (d + 1)) ℚ × ℚ)
    (m : LinearVtln ℚ d) (gmm : G) (feats : FeatsColl ℚ d)
    (posteriors : PostColl) (utt2speak : Option (List (String × String)))
    (hwf : ∀ p ∈ feats, ∃ post, dget posteriors p.1 = some post ∧
      post.length = p.2.length)
    (hsp : ∀ u2s, utt2speak = some u2s → ∀ p ∈ feats, (dget u2s p.1).isSome)
    (hct : ∀ obs, (m.get_warp (ct gmm obs).1).isSome)
    (htot : total_beta posteriors feats = 0) :
    estimate ct m gmm feats posteriors utt2speak = .error .zeroDivision := by
  cases utt2speak with
  | none =>
    unfold estimate
    refine est_units_zero ct m gmm posteriors hct _ 0 0 ?_ ?_
    · intro u hu p hp
      obtain ⟨q, hq, rfl⟩ := List.mem_map.mp hu
      rcases List.mem_singleton.mp hp with rfl
      exact hwf p hq
    · rw [zero_add, List.map_map]
      have hcomp : ((fun u : String × List (String × List (Fin d → ℚ)) =>
            (u.2.map (unit_beta posteriors)).sum) ∘ fun p => (p.1, [p])) =
          unit_beta posteriors := by
        funext q
        simp [Function.comp]
      rw [hcomp]
      exact htot
  | some u2s =>
    have hsp' := hsp u2s rfl
    simp only [estimate, partition_ok feats u2s hsp']
    refine est_units_zero ct m gmm posteriors hct _ 0 0 ?_ ?_
    · intro g hg p hp
      obtain ⟨spk, _, rfl⟩ := List.mem_map.mp hg
      exact hwf p (List.mem_of_mem_filter hp)
    · rw [zero_add, partition_sum feats u2s hsp']
      exact htot

/-- C10 (witness): calling `estimate` on an empty feature collection (total
accumulated frame count zero) raises `ZeroDivisionError`. -/
theorem claim_C10_zero_total_count_witness :
    estimate (fun _ _ => (0, 0, 0)) (⟨[(0, 0)]⟩ : LinearVtln ℚ 1) ()
      ([] : FeatsColl ℚ 1) ([] : PostColl) none = .error .zeroDivision :=
  claim_C10_zero_total_count (fun _ _ => (0, 0, 0)) ⟨[(0, 0)]⟩ () [] [] none
    (fun p hp => absurd hp (List.not_mem_nil p))
    (fun _ h => Option.noConfusion h)
    (fun _ => rfl) rfl

section TrainingLoop

variable {d : ℕ} {U A P : Type _}

/-- The external UBM-GMM collaborator at its interface boundary (spec §6):
`accumulate` produces sufficient statistics, `estimate` re-estimates the
model (the source's in-place mutation is modelled as a state transition),
`gaussian_selection_to_post` computes Gaussian-selection posteriors for a
feature collection. -/
structure UbmOps (d : ℕ) (U A P : Type _) where
  accumulate : U → FeatsColl ℚ d → A
  estimate : U → A → U
  gaussian_selection_to_post : U → FeatsColl ℚ d → P

/-- The signature of `self.estimate` as invoked by `process` (vtln.py
lines 640-641 and 663-664): UBM, untransformed features, posteriors and
the optional speaker map, returning transforms and warps or raising. -/
abbrev EstFun (d : ℕ) (U P : Type _) :=
  U → FeatsColl ℚ d → P → Option (List (String × String)) →
    Except PyErr (TransColl d × List (String × ℚ))

/-- The mutable state carried across EM iterations: the UBM object and the
current `self.transforms` / `self.warps`. -/
structure LoopState (d : ℕ) (U : Type _) where
  ubm : U
  transforms : TransColl d
  warps : List (String × ℚ)

/-- `np.dot(feats.data, linear_part.numpy().T) + offset.numpy()` (vtln.py
lines 650-653): each frame `x` maps to `linear ⬝ x + offset`, where
`linear` is the first `dim` columns of the unit's transform and `offset`
its last column. -/
def apply_affine (T : Matrix (Fin d) (Fin (d + 1)) ℚ) (x : Fin d → ℚ) :
    Fin d → ℚ :=
  fun i => (∑ j : Fin d, T i (Fin.castSucc j) * x j) + T i (Fin.last d)

/-- The feature-adaptation step at the top of each EM iteration (vtln.py
lines 646-654): for each utterance the transform of its unit (`utt`
itself, or `utt2speak[utt]` — a `KeyError` when missing, as is a unit
absent from `self.transforms`) is applied to the original features. -/
def transform_features (transforms : TransColl d)
    (utt2speak : Option (List (String × String))) :
    FeatsColl ℚ d → Except PyErr (FeatsColl ℚ d)
  | [] => .ok []
  | (utt, rows) :: rest =>
    match (match utt2speak with
           | none => some utt
           | some u2s => dget u2s utt) with
    | none => .error .keyError
    | some ind =>
      match dget transforms ind with
      | none => .error .keyError
      | some T =>
        match transform_features transforms utt2speak rest with
        | .error e => .error e
        | .ok tail => .ok ((utt, rows.map (apply_affine T)) :: tail)

/-- One EM iteration (vtln.py lines 643-664): adapt the features with the
current transforms; re-estimate the UBM from the **adapted** features
(`ubm.accumulate(features)` then `ubm.estimate(gmm_accs)`); compute the
Gaussian-selection posteriors with the updated UBM **on the adapted
features** (`ubm.gaussian_selection_to_post(features)`, line 662); and
re-run the estimator on the **original** features with those posteriors. -/
def em_step (ops : UbmOps d U A P) (est : EstFun d U P)
    (orig : FeatsColl ℚ d) (utt2speak : Option (List (String × String)))
    (st : LoopState d U) : Except PyErr (LoopState d U) :=
  match transform_features st.transforms utt2speak orig with
  | .error e => .error e
  | .ok features =>
    match est (ops.estimate st.ubm (ops.accumulate st.ubm features)) orig
        (ops.gaussian_selection_to_post
          (ops.estimate st.ubm (ops.accumulate st.ubm features)) features)
        utt2speak with
    | .error e => .error e
    | .ok (t, w) =>
      .ok ⟨ops.estimate st.ubm (ops.accumulate st.ubm features), t, w⟩

/-- A second definition following the spec's words, for comparison with
the code: spec §4.4 step 7(c) — "recompute Gaussian-selection posteriors
against the *original* (untransformed) features using the *updated*
UBM". Identical to `em_step` except that the posteriors are computed on
`orig`. -/
def em_step_specified (ops : UbmOps d U A P) (est : EstFun d U P)
    (orig : FeatsColl ℚ d) (utt2speak : Option (List (String × String)))
    (st : LoopState d U) : Except PyErr (LoopState d U) :=
  match transform_features st.transforms utt2speak orig with
  | .error e => .error e
  | .ok features =>
    match est (ops.estimate st.ubm (ops.accumulate st.ubm features)) orig
        (ops.gaussian_selection_to_post
          (ops.estimate st.ubm (ops.accumulate st.ubm features)) orig)
        utt2speak with
    | .error e => .error e
    | .ok (t, w) =>
      .ok ⟨ops.estimate st.ubm (ops.accumulate st.ubm features), t, w⟩

/-- `for i in range(self.num_iters)` (vtln.py line 643): the EM
iterations run strictly sequentially. -/
def em_loop (ops : UbmOps d U A P) (est : EstFun d U P)
    (orig : FeatsColl ℚ d) (utt2speak : Option (List (String × String))) :
    ℕ → LoopState d U → Except PyErr (LoopState d U)
  | 0, st => .ok st
  | n + 1, st =>
    match em_step ops est orig utt2speak st with
    | .error e => .error e
    | .ok st' => em_loop ops est orig utt2speak n st'

end TrainingLoop

/-- C1 (amended): the EM refinement loop runs exactly `num_iters`
sequential iterations of `em_step` (zero iterations for `n = 0`, and each
successor peels exactly one step), and in every completed iteration the
posteriors passed to `estimate` are computed — with the UBM updated in
that same iteration — against the **adapted (transformed)** features, not
the original ones; `estimate` itself receives the original untransformed
features. -/
theorem claim_C1_em_iterations {d : ℕ} {U A P : Type _}
    (ops : UbmOps d U A P) (est : EstFun d U P) (orig : FeatsColl ℚ d)
    (utt2speak : Option (List (String × String))) :
    (∀ st, em_loop ops est orig utt2speak 0 st = .ok st) ∧
    (∀ n st, em_loop ops est orig utt2speak (n + 1) st =
      match em_step ops est orig utt2speak st with
      | .error e => .error e
      | .ok st' => em_loop ops est orig utt2speak n st') ∧
    (∀ st st', em_step ops est orig utt2speak st = .ok st' →
      ∃ adapted,
        transform_features st.transforms utt2speak orig = .ok adapted ∧
        st'.ubm = ops.estimate st.ubm (ops.accumulate st.ubm adapted) ∧
        est st'.ubm orig
          (ops.gaussian_selection_to_post st'.ubm adapted) utt2speak =
          .ok (st'.transforms, st'.warps)) := by
  refine ⟨fun st => rfl, fun n st => rfl, fun st st' hstep => ?_⟩
  cases htf : transform_features st.transforms utt2speak orig with
  | error e =>
    simp only [em_step, htf] at hstep
    exact Except.noConfusion hstep
  | ok adapted =>
    simp only [em_step, htf] at hstep
    refine ⟨adapted, rfl, ?_⟩
    cases hest : est (ops.estimate st.ubm (ops.accumulate st.ubm adapted))
        orig (ops.gaussian_selection_to_post
          (ops.estimate st.ubm (ops.accumulate st.ubm adapted)) adapted)
        utt2speak with
    | error e =>
      simp only [hest] at hstep
      exact Except.noConfusion hstep
    | ok tw =>
      obtain ⟨t, w⟩ := tw
      simp only [hest, Except.ok.injEq] at hstep
      subst hstep
      exact ⟨rfl, hest⟩

/-- Concrete transform used by the loop counterexample: `x ↦ 2x + 3`. -/
def T0 : Matrix (Fin 1) (Fin 2) ℚ := !![2, 3]

/-- Concrete UBM operations whose posteriors reveal the feature values
they were computed from. -/
def ops0 : UbmOps 1 Unit Unit (List (String × List ℚ)) :=
  ⟨fun _ _ => (), fun _ _ => (),
    fun _ fc => fc.map fun p => (p.1, p.2.map fun r => r 0)⟩

/-- Concrete estimator: records the first posterior value as the warp. -/
def est0 : EstFun 1 Unit (List (String × List ℚ)) :=
  fun _ _ posts _ =>
    .ok ([("u", T0)], [("u", ((posts.headD ("", [])).2.headD 0))])

/-- Concrete original features: one utterance, one frame with value 2. -/
def orig0 : FeatsColl ℚ 1 := [("u", [![2]])]

/-- Concrete loop state entering the iteration. -/
def st0 : LoopState 1 Unit := ⟨(), [("u", T0)], [("u", 0)]⟩

theorem T0_row : apply_affine T0 ![2] = ![7] := by
  funext i
  rw [Subsingleton.elim i 0]
  show (∑ j : Fin 1, T0 0 (Fin.castSucc j) * (![2] : Fin 1 → ℚ) j) +
      T0 0 (Fin.last 1) = 7
  rw [Fin.sum_univ_one]
  norm_num [show T0 0 0 = 2 from rfl,
    show T0 0 (Fin.last 1) = 3 from rfl]

theorem tf_eval : transform_features [("u", T0)] none [("u", [![2]])] =
    .ok [("u", [![7]])] := by
  simp [transform_features, dget, T0_row]

/-- C1 (counterexample): a concrete instantiation of one EM iteration on
which the code's step (`em_step`, posteriors from the **adapted**
features) and the spec-described step (`em_step_specified`, posteriors
from the **original** features) both succeed but produce different warps:
the adapted frame is `2·2+3 = 7`, the original frame is `2`. -/
theorem claim_C1_counterexample :
    (em_step ops0 est0 orig0 none st0).map (fun st => st.warps) =
      .ok [("u", 7)] ∧
    (em_step_specified ops0 est0 orig0 none st0).map (fun st => st.warps) =
      .ok [("u", 2)] ∧
    ([("u", (7 : ℚ))] : List (String × ℚ)) ≠ [("u", (2 : ℚ))] := by
  refine ⟨?_, ?_, ?_⟩
  · simp only [em_step, st0, orig0, tf_eval, ops0, est0, Except.map]
    norm_num
  · simp only [em_step_specified, st0, orig0, tf_eval, ops0, est0, Except.map]
    norm_num
  · intro h
    have h7 := congrArg (fun l : List (String × ℚ) => (l.headD ("", 0)).2) h
    simp at h7

theorem em_step_eval : em_step ops0 est0 orig0 none st0 =
    .ok ⟨(), [("u", T0)], [("u", 7)]⟩ := by
  simp only [em_step, st0, orig0, tf_eval, ops0, est0]
  norm_num

/-- C1 (witness): the characterization applied to the concrete iteration
`em_step_eval`: the posteriors handed to the estimator were computed from
the adapted features. -/
theorem claim_C1_em_iterations_witness :
    ∃ adapted,
      transform_features st0.transforms none orig0 = .ok adapted ∧
      (⟨(), [("u", T0)], [("u", 7)]⟩ : LoopState 1 Unit).ubm =
        ops0.estimate st0.ubm (ops0.accumulate st0.ubm adapted) ∧
      est0 (⟨(), [("u", T0)], [("u", 7)]⟩ : LoopState 1 Unit).ubm orig0
        (ops0.gaussian_selection_to_post
          (⟨(), [("u", T0)], [("u", 7)]⟩ : LoopState 1 Unit).ubm adapted)
        none =
        .ok ((⟨(), [("u", T0)], [("u", 7)]⟩ : LoopState 1 Unit).transforms,
          (⟨(), [("u", T0)], [("u", 7)]⟩ : LoopState 1 Unit).warps) :=
  (claim_C1_em_iterations ops0 est0 orig0 none).2.2 st0 _ em_step_eval

/-- The per-speaker broadcast after the EM loop (vtln.py lines 666-672):
`{utt: vals[spk] for utt, spk in utt2speak.items()}` — a `KeyError` if a
speaker has no computed value. -/
def broadcast {γ : Type _} (vals : List (String × γ)) :
    List (String × String) → Except PyErr (List (String × γ))
  | [] => .ok []
  | (utt, spk) :: rest =>
    match dget vals spk with
    | none => .error .keyError
    | some v =>
      match broadcast vals rest with
      | .error e => .error e
      | .ok tail => .ok ((utt, v) :: tail)

/-- The LVTLN training phase of `process()` once the UBM and the base
transforms are in place (vtln.py lines 639-672): initial posteriors and
estimate on the original features, `num_iters` EM iterations, then — when
training by speaker — the per-speaker transforms and warps are broadcast
to every utterance.  The returned pair is what `process` stores in
`self.transforms` / `self.warps`. -/
def train_lvtln {d : ℕ} {U A P : Type _} (ops : UbmOps d U A P)
    (est : EstFun d U P) (orig : FeatsColl ℚ d)
    (utt2speak : Option (List (String × String))) (ubm0 : U)
    (num_iters : ℕ) :
    Except PyErr (TransColl d × List (String × ℚ)) :=
  match est ubm0 orig (ops.gaussian_selection_to_post ubm0 orig)
      utt2speak with
  | .error e => .error e
  | .ok (t0, w0) =>
    match em_loop ops est orig utt2speak num_iters ⟨ubm0, t0, w0⟩ with
    | .error e => .error e
    | .ok st =>
      match utt2speak with
      | none => .ok (st.transforms, st.warps)
      | some u2s =>
        match broadcast st.transforms u2s with
        | .error e => .error e
        | .ok t =>
          match broadcast st.warps u2s with
          | .error e => .error e
          | .ok w => .ok (t, w)

/-- A successful broadcast maps each utterance to the value stored for its
speaker: the lookup in the result equals the lookup of the utterance's
speaker in the source mapping. -/
theorem broadcast_lookup {γ : Type _} (vals : List (String × γ)) :
    ∀ (u2s : List (String × String)) (out : List (String × γ)),
    broadcast vals u2s = .ok out →
    ∀ u spk, dget u2s u = some spk → dget out u = dget vals spk
  | [], out, hb, u, spk, hu => Option.noConfusion hu
  | (utt, s) :: rest, out, hb, u, spk, hu => by
    simp only [broadcast] at hb
    cases hv : dget vals s with
    | none =>
      rw [hv] at hb
      exact Except.noConfusion hb
    | some v =>
      rw [hv] at hb
      cases htail : broadcast vals rest with
      | error e =>
        rw [htail] at hb
        exact Except.noConfusion hb
      | ok tail =>
        rw [htail] at hb
        injection hb with hb'
        subst hb'
        by_cases hus : u = utt
        · subst hus
          simp only [dget, if_pos rfl] at hu ⊢
          injection hu with hu'
          subst hu'
          exact hv.symm
        · simp only [dget, if_neg hus] at hu ⊢
          exact broadcast_lookup vals rest tail htail u spk hu

/-- C6: after `process()` completes with `by_speaker=True` (so the
training phase ran with a `utt2speak` map and ended with the broadcast),
any two utterances carrying the same speaker label are mapped to the
identical stored warp and the identical stored transform. -/
theorem claim_C6_same_speaker_same_warp {d : ℕ} {U A P : Type _}
    (ops : UbmOps d U A P) (est : EstFun d U P) (orig : FeatsColl ℚ d)
    (u2s : List (String × String)) (ubm0 : U) (num_iters : ℕ)
    (t : TransColl d) (w : List (String × ℚ))
    (hrun : train_lvtln ops est orig (some u2s) ubm0 num_iters = .ok (t, w))
    (u1 u2 spk : String)
    (h1 : dget u2s u1 = some spk) (h2 : dget u2s u2 = some spk) :
    dget w u1 = dget w u2 ∧ dget t u1 = dget t u2 := by
  unfold train_lvtln at hrun
  cases hest : est ubm0 orig (ops.gaussian_selection_to_post ubm0 orig)
      (some u2s) with
  | error e =>
    rw [hest] at hrun
    exact Except.noConfusion hrun
  | ok tw0 =>
    obtain ⟨t0, w0⟩ := tw0
    rw [hest] at hrun
    cases hloop : em_loop ops est orig (some u2s) num_iters
        ⟨ubm0, t0, w0⟩ with
    | error e =>
      simp only [hloop] at hrun
      exact Except.noConfusion hrun
    | ok st =>
      simp only [hloop] at hrun
      cases hbt : broadcast st.transforms u2s with
      | error e =>
        rw [hbt] at hrun
        exact Except.noConfusion hrun
      | ok tb =>
        rw [hbt] at hrun
        cases hbw : broadcast st.warps u2s with
        | error e =>
          rw [hbw] at hrun
          exact Except.noConfusion hrun
        | ok wb =>
          rw [hbw] at hrun
          injection hrun with hrun'
          have ht : tb = t := congrArg Prod.fst hrun'
          have hw : wb = w := congrArg Prod.snd hrun'
          subst ht
          subst hw
          constructor
          · rw [broadcast_lookup st.warps u2s _ hbw u1 spk h1,
              broadcast_lookup st.warps u2s _ hbw u2 spk h2]
          · rw [broadcast_lookup st.transforms u2s _ hbt u1 spk h1,
              broadcast_lookup st.transforms u2s _ hbt u2 spk h2]

/-- Trivial UBM operations for the training-phase witness. -/
def ops6 : UbmOps 1 Unit Unit Unit := ⟨fun _ _ => (), fun _ _ => (), fun _ _ => ()⟩

/-- Estimator for the training-phase witness: a single speaker unit. -/
def est6 : EstFun 1 Unit Unit := fun _ _ _ _ => .ok ([("s", T0)], [("s", 5)])

/-- Two utterances of the same speaker (frame lists empty). -/
def orig6 : FeatsColl ℚ 1 := [("u1", []), ("u2", [])]

/-- Speaker map for the training-phase witness. -/
def u2s6 : List (String × String) := [("u1", "s"), ("u2", "s")]

/-- C6 (witness): a full by-speaker training run on two utterances of one
speaker; both utterances end with the same stored warp and transform. -/
theorem claim_C6_same_speaker_same_warp_witness :
    dget [("u1", (5 : ℚ)), ("u2", 5)] "u1" =
      dget [("u1", (5 : ℚ)), ("u2", 5)] "u2" ∧
    dget [("u1", T0), ("u2", T0)] "u1" = dget [("u1", T0), ("u2", T0)] "u2" :=
  claim_C6_same_speaker_same_warp ops6 est6 orig6 u2s6 () 1
    [("u1", T0), ("u2", T0)] [("u1", (5 : ℚ)), ("u2", 5)] rfl
    "u1" "u2" "s" rfl rfl

/-- The configuration fields read by the validation stage of `process()`. -/
structure VtlnConfig where
  min_warp : ℚ
  max_warp : ℚ
  warp_step : ℚ
  by_speaker : Bool

/-- The validation phase at the top of `process()` (vtln.py lines
539-559), in source order: `group_by` must be `'utterance'` or
`'speaker'`; grouping by speaker requires `by_speaker`; `by_speaker`
requires speaker information in the utterances; and
`min_warp > max_warp` is rejected.  All four raise `ValueError`. -/
def process_checks (group_by : String) (cfg : VtlnConfig)
    (has_speakers : Bool) : Except PyErr Unit :=
  if group_by ≠ "utterance" ∧ group_by ≠ "speaker" then .error .valueError
  else if group_by = "speaker" ∧ cfg.by_speaker = false then
    .error .valueError
  else if cfg.by_speaker = true ∧ has_speakers = false then
    .error .valueError
  else if cfg.min_warp > cfg.max_warp then .error .valueError
  else .ok ()

/-- `process()` up to the hand-off to the external stages (vtln.py lines
539-576): after validation, the UBM is acquired or trained (`train_ubm`),
the LVTLN model is constructed with the computed class grid, and the rest
of training runs (`rest`, everything from line 578 on), receiving the UBM
and the grid parameters `(num_classes, default_class)` of the freshly
constructed model. -/
def process_run {U R : Type _} (group_by : String) (cfg : VtlnConfig)
    (has_speakers : Bool) (train_ubm : Unit → U)
    (rest : U → ℤ × ℤ → Except PyErr R) : Except PyErr R :=
  match process_checks group_by cfg has_speakers with
  | .error e => .error e
  | .ok _ =>
    rest (train_ubm ())
      (num_classes cfg.min_warp cfg.max_warp cfg.warp_step,
        default_class cfg.min_warp cfg.warp_step)

/-- The `norm_type` property setter (vtln.py lines 159-163): any value
other than `'offset'`, `'none'` or `'diag'` raises `ValueError` at
assignment time. -/
def set_norm_type (value : String) : Except PyErr String :=
  if value = "offset" ∨ value = "none" ∨ value = "diag" then .ok value
  else .error .valueError

/-- C7: whenever `group_by` is neither `'utterance'` nor `'speaker'`, or
`group_by='speaker'` while `by_speaker=False`, or `by_speaker=True` with
no speaker information, or `min_warp > max_warp`, `process()` raises
`ValueError` immediately — for **every** choice of the UBM-training stage
and of the remainder of the pipeline, i.e. before the UBM is trained and
before the LVTLN model is created or mutated; and setting `norm_type` to
anything other than `'offset'`, `'none'` or `'diag'` raises immediately. -/
theorem claim_C7_validation :
    (∀ (group_by : String) (cfg : VtlnConfig) (has_speakers : Bool),
      ((group_by ≠ "utterance" ∧ group_by ≠ "speaker") ∨
        (group_by = "speaker" ∧ cfg.by_speaker = false) ∨
        (cfg.by_speaker = true ∧ has_speakers = false) ∨
        cfg.min_warp > cfg.max_warp) →
      ∀ (U R : Type) (train_ubm : Unit → U)
        (rest : U → ℤ × ℤ → Except PyErr R),
        process_run group_by cfg has_speakers train_ubm rest =
          .error .valueError) ∧
    (∀ value : String, value ≠ "offset" → value ≠ "none" →
      value ≠ "diag" → set_norm_type value = .error .valueError) := by
  constructor
  · intro group_by cfg has_speakers hbad U R train_ubm rest
    have hchk : process_checks group_by cfg has_speakers =
        .error .valueError := by
      unfold process_checks
      by_cases c1 : group_by ≠ "utterance" ∧ group_by ≠ "speaker"
      · rw [if_pos c1]
      rw [if_neg c1]
      by_cases c2 : group_by = "speaker" ∧ cfg.by_speaker = false
      · rw [if_pos c2]
      rw [if_neg c2]
      by_cases c3 : cfg.by_speaker = true ∧ has_speakers = false
      · rw [if_pos c3]
      rw [if_neg c3]
      by_cases c4 : cfg.min_warp > cfg.max_warp
      · rw [if_pos c4]
      rw [if_neg c4]
      exfalso
      rcases hbad with h | h | h | h
      exacts [c1 h, c2 h, c3 h, c4 h]
    unfold process_run
    rw [hchk]
  · intro value h1 h2 h3
    unfold set_norm_type
    rw [if_neg]
    rintro (h | h | h)
    exacts [h1 h, h2 h, h3 h]

/-- C7 (witness): the validation theorem applied at concrete bad
configurations: an unknown `group_by`, a by-speaker conflict,
`min_warp > max_warp`, and an invalid `norm_type`. -/
theorem claim_C7_validation_witness :
    process_run "foo" ⟨1, 2, 1, true⟩ true (fun _ => ())
      (fun _ _ => .ok (0 : ℤ)) = .error .valueError ∧
    process_run "speaker" ⟨1, 2, 1, false⟩ true (fun _ => ())
      (fun _ _ => .ok (0 : ℤ)) = .error .valueError ∧
    process_run "utterance" ⟨2, 1, 1, false⟩ true (fun _ => ())
      (fun _ _ => .ok (0 : ℤ)) = .error .valueError ∧
    set_norm_type "fmllr" = .error .valueError :=
  ⟨claim_C7_validation.1 "foo" ⟨1, 2, 1, true⟩ true
      (Or.inl ⟨by decide, by decide⟩) Unit ℤ _ _,
    claim_C7_validation.1 "speaker" ⟨1, 2, 1, false⟩ true
      (Or.inr (Or.inl ⟨rfl, rfl⟩)) Unit ℤ _ _,
    claim_C7_validation.1 "utterance" ⟨2, 1, 1, false⟩ true
      (Or.inr (Or.inr (Or.inr (by norm_num)))) Unit ℤ _ _,
    claim_C7_validation.2 "fmllr" (by decide) (by decide) (by decide)⟩

/-- `VtlnProcessor.save` (vtln.py lines 235-244): raises `OSError` when
the path already exists — before anything is written, so the filesystem
(modelled as a path→blob association list) is returned unchanged; then
raises `TypeError` when the LVTLN is not initialized; otherwise writes
the model blob at the path. -/
def save {α : Type _} (fs : List (String × α)) (path : String)
    (lvtln : Option α) : List (String × α) × Option PyErr :=
  if (dget fs path).isSome then (fs, some .osError)
  else
    match lvtln with
    | none => (fs, some .typeError)
    | some m => ((path, m) :: fs, none)

/-- `VtlnProcessor.load` (vtln.py lines 211-221): raises `OSError` when
the path is not a file, else reads the stored model. -/
def load {α : Type _} (fs : List (String × α)) (path : String) :
    Except PyErr α :=
  match dget fs path with
  | none => .error .osError
  | some m => .ok m

/-- C8: `save(path)` raises whenever `path` already exists, and the
existing filesystem is returned unchanged (nothing is written and the
existing file's contents are untouched); `load(path)` raises whenever
`path` does not exist. -/
theorem claim_C8_save_load {α : Type _} :
    (∀ (fs : List (String × α)) (path : String) (b : α) (lvtln : Option α),
      dget fs path = some b → save fs path lvtln = (fs, some .osError)) ∧
    (∀ (fs : List (String × α)) (path : String),
      dget fs path = none → load fs path = .error .osError) := by
  constructor
  · intro fs path b lvtln hb
    unfold save
    rw [if_pos (by rw [hb]; rfl)]
  · intro fs path h
    unfold load
    rw [h]

/-- C8 (witness): saving over an existing path errors and leaves the
filesystem unchanged; loading a missing path errors. -/
theorem claim_C8_save_load_witness :
    save [("p", (0 : ℤ))] "p" (some 1) =
      ([("p", (0 : ℤ))], some PyErr.osError) ∧
    load ([] : List (String × ℤ)) "q" = .error .osError :=
  ⟨claim_C8_save_load.1 [("p", 0)] "p" 0 (some 1) rfl,
    claim_C8_save_load.2 [] "q" rfl⟩
